import Mathlib

/-!
Verification development for the core of `pyOptimalEstimation`
(`src/pyOptimalEstimation/pyOEcore.py`).

The embedding idealizes IEEE floating point by exact rational arithmetic:
a float value is modelled by `FV := Option ℚ`, where `none` stands for NaN
(and for the infinities produced by division by zero, which the code treats
the same way as NaN wherever it inspects them: both are replaced by `0` in
`getJacobian`, and both make comparisons false).  Condition-number based
singularity detection (`np.linalg.cond(A) > 1/eps`) is idealized as exact
singularity (`det A = 0`): in exact arithmetic a matrix has finite condition
number iff it is invertible.  Transcendental ingredients (matrix
eigendecomposition, `scipy.stats.chi2.isf`, wall-clock time) enter as oracle
parameters; square roots of prior variances, which the source computes once
at construction (`x_a_err`, `b_p_err`), are stored as given data and related
to the variances by hypotheses where a claim mentions them.
-/

namespace PyOE

attribute [local semireducible] Rat.add Rat.sub Rat.mul Rat.inv

open scoped Matrix

/-- Float values: `none` models NaN (and infinity), `some q` a finite value. -/
abbrev FV := Option ℚ

/-- NaN-propagating addition. -/
def fadd : FV → FV → FV
  | some a, some b => some (a + b)
  | _, _ => none

/-- NaN-propagating subtraction. -/
def fsub : FV → FV → FV
  | some a, some b => some (a - b)
  | _, _ => none

/-- NaN-propagating multiplication. -/
def fmul : FV → FV → FV
  | some a, some b => some (a * b)
  | _, _ => none

/-- NaN-propagating division; division by zero yields `none` (inf or NaN). -/
def fdiv : FV → FV → FV
  | some a, some b => if b = 0 then none else some (a / b)
  | _, _ => none

/-- Sum of a list of float values, NaN-propagating. -/
def fsum (l : List FV) : FV := l.foldr fadd (some 0)

/-- The `jacobian[np.isnan(jacobian) | np.isinf(jacobian)] = 0.` policy:
NaN and infinite values are replaced by `0`. -/
def fclean (v : FV) : ℚ := v.getD 0

/-- Comparison `v < c` on floats: false when `v` is NaN. -/
def fvAbsLt (v : FV) (c : ℚ) : Bool :=
  match v with
  | some q => decide (|q| < c)
  | none => false

/-- Comparison `v != 0` on floats: true when `v` is NaN (NumPy semantics). -/
def fvNe0 (v : FV) : Bool :=
  match v with
  | some q => decide (q ≠ 0)
  | none => true

/-- Matrix-vector product of a real (rational) matrix with a float vector,
propagating NaN through every entry of the result, as NumPy does. -/
def mulVecFV {m n : ℕ} (M : Matrix (Fin m) (Fin n) ℚ) (v : Fin n → FV) :
    Fin m → FV :=
  fun i => fsum (List.ofFn fun j => fmul (some (M i j)) (v j))

/-- Dot product of float vectors, NaN-propagating. -/
def fvDot {n : ℕ} (u v : Fin n → FV) : FV :=
  fsum (List.ofFn fun k => fmul (u k) (v k))

/-- Exceptions raised by the Python source. -/
inductive PyErr
  | assertionError
  | valueError
  | attributeError
  | typeError
  deriving DecidableEq, Repr

instance {ε α : Type} [DecidableEq ε] [DecidableEq α] :
    DecidableEq (Except ε α) := fun a b =>
  match a, b with
  | .error e, .error f =>
    if h : e = f then .isTrue (by rw [h]) else
      .isFalse (by intro hc; cases hc; exact h rfl)
  | .error _, .ok _ => .isFalse (by intro hc; cases hc)
  | .ok _, .error _ => .isFalse (by intro hc; cases hc)
  | .ok x, .ok y =>
    if h : x = y then .isTrue (by rw [h]) else
      .isFalse (by intro hc; cases hc; exact h rfl)

/-- Executable determinant by Laplace expansion along the first row;
proven equal to `Matrix.det` below. -/
def detQ : {n : ℕ} → Matrix (Fin n) (Fin n) ℚ → ℚ
  | 0, _ => 1
  | n + 1, A =>
    ∑ j : Fin (n + 1),
      (-1) ^ (j : ℕ) * A 0 j * detQ (A.submatrix Fin.succ j.succAbove)

/-- Executable adjugate (cofactor transpose), mirroring
`Matrix.adjugate_apply`. -/
def adjQ {n : ℕ} (A : Matrix (Fin n) (Fin n) ℚ) : Matrix (Fin n) (Fin n) ℚ :=
  fun i j => detQ (A.updateRow j (Pi.single i 1))

/-- Exact inverse `det⁻¹ • adjugate`, the value `np.linalg.inv` computes
in exact arithmetic. -/
def qInverse {n : ℕ} (A : Matrix (Fin n) (Fin n) ℚ) :
    Matrix (Fin n) (Fin n) ℚ :=
  (detQ A)⁻¹ • adjQ A

/-- All-NaN square matrix, the sentinel returned by `invertMatrix`. -/
def nanMatrix (n : ℕ) : Matrix (Fin n) (Fin n) FV := fun _ _ => none

/-- Rational part of a float matrix (meaningful when it has no NaN entry). -/
def stripNaN {n : ℕ} (A : Matrix (Fin n) (Fin n) FV) :
    Matrix (Fin n) (Fin n) ℚ :=
  fun i j => fclean (A i j)

/-- Embedding of `invertMatrix(A, raise_error=True)` (pyOEcore.py 1191-1217):
if any entry is NaN, return an all-NaN matrix (with a warning, not an error);
otherwise, if the matrix is singular (idealizing `np.linalg.cond(A) > 1/eps`
as `det = 0` in exact arithmetic), raise `ValueError` when `raise_error` and
return an all-NaN matrix otherwise; else return the exact inverse. -/
def invertMatrix {n : ℕ} (A : Matrix (Fin n) (Fin n) FV)
    (raise_error : Bool) : Except PyErr (Matrix (Fin n) (Fin n) FV) :=
  if ∃ i j, A i j = none then .ok (nanMatrix n)
  else if detQ (stripNaN A) = 0 then
    if raise_error then .error .valueError else .ok (nanMatrix n)
  else .ok fun i j => some (qInverse (stripNaN A) i j)

/-- Strict inversion of a NaN-free matrix, as used inside the retrieval loop
(all matrices inverted there are built from rational data and are NaN-free;
`invertMatrix` is always called there with the default `raise_error=True`). -/
def invertMatrixQ {n : ℕ} (M : Matrix (Fin n) (Fin n) ℚ) :
    Except PyErr (Matrix (Fin n) (Fin n) ℚ) :=
  if detQ M = 0 then .error .valueError else .ok (qInverse M)

/-- Jacobian disturbance specification: a uniform factor (`float`) or a
per-variable mapping (`dict`).  Any other Python value raises `TypeError`
in the source; that branch is unrepresentable in the typed embedding. -/
inductive Disturbance (n : ℕ)
  | uniform (f : ℚ)
  | perKey (g : Fin n → ℚ)

/-- Resolution of the disturbance specification to a per-variable factor
(pyOEcore.py 246-253). -/
def resolveDist {n : ℕ} : Disturbance n → Fin n → ℚ
  | .uniform f => fun _ => f
  | .perKey g => g

/-- Constructor data of the `optimalEstimation` object (pyOEcore.py 133-218),
restricted to the fields the retrieval core reads.  Names are replaced by
`Fin` indices (the state variables come first in the concatenated
state+parameter vector, as in `x_vars + b_vars`).  `x_a_err` and `b_p_err`
hold the square roots of the prior variances, which the source computes once
at construction; square roots are irrational in general, so they are stored
as given data here. -/
structure OEConfig (nx ny nb : ℕ) where
  x_a : Fin nx → ℚ
  S_a : Matrix (Fin nx) (Fin nx) ℚ
  x_a_err : Fin nx → ℚ
  y_obs : Fin ny → ℚ
  S_y : Matrix (Fin ny) (Fin ny) ℚ
  b_p : Fin nb → ℚ
  S_b : Matrix (Fin nb) (Fin nb) ℚ
  b_p_err : Fin nb → ℚ
  forward : (Fin (nx + nb) → FV) → Fin ny → FV
  x_lowerLimit : Fin nx → Option ℚ
  x_upperLimit : Fin nx → Option ℚ
  useFactorInJac : Bool
  gammaFactor : Option (List ℚ)
  disturbance : Disturbance (nx + nb)
  convergenceFactor : ℚ

/-- Concatenation `pd.concat((x, b_p))` of the (possibly NaN) state vector
with the rational parameter vector. -/
def xbConcat {nx nb : ℕ} (x : Fin nx → FV) (b : Fin nb → ℚ) :
    Fin (nx + nb) → FV :=
  Fin.append x fun k => some (b k)

/-- Concatenated error vector `pd.concat((x_a_err, b_p_err))`. -/
def xbErr {nx ny nb : ℕ} (cfg : OEConfig nx ny nb) : Fin (nx + nb) → ℚ :=
  Fin.append cfg.x_a_err cfg.b_p_err

/-- Diagonal of the prior covariances along the concatenated vector:
the prior variance of each state/parameter variable. -/
def xbVariance {nx ny nb : ℕ} (cfg : OEConfig nx ny nb) :
    Fin (nx + nb) → ℚ :=
  Fin.append (fun k => cfg.S_a k k) fun k => cfg.S_b k k

/-- Embedding of `optimalEstimation.getJacobian` (pyOEcore.py 220-302).
For each variable of the concatenated state+parameter vector, one entry is
disturbed (multiplicatively by the factor when `useFactorInJac`, else by
adding factor times the prior standard deviation), the forward model is
evaluated there, and the Jacobian column is the difference quotient; NaN and
infinite entries are replaced by `0`.  The two `assert` statements become
`AssertionError` results: multiplicative disturbance of a vector with a zero
entry, and (inside the additive difference-quotient loop, hence only when the
measurement vector is nonempty) a zero perturbation magnitude. -/
def getJacobian {nx ny nb : ℕ} (cfg : OEConfig nx ny nb)
    (xb : Fin (nx + nb) → FV) (y : Fin ny → FV) :
    Except PyErr
      (Matrix (Fin ny) (Fin nx) ℚ × Matrix (Fin ny) (Fin nb) ℚ) :=
  if cfg.useFactorInJac ∧ ∃ k, xb k = some 0 then .error .assertionError
  else
    let dists := resolveDist cfg.disturbance
    let xbDist : Fin (nx + nb) → Fin (nx + nb) → FV := fun k =>
      Function.update xb k
        (if cfg.useFactorInJac then fmul (xb k) (some (dists k))
         else fadd (xb k) (some (dists k * xbErr cfg k)))
    let yDist : Fin (nx + nb) → Fin ny → FV := fun k => cfg.forward (xbDist k)
    if cfg.useFactorInJac = false ∧ 0 < ny ∧
        ∃ k, dists k * xbErr cfg k = 0 then .error .assertionError
    else
      let dist : Fin (nx + nb) → FV := fun k =>
        if cfg.useFactorInJac then fmul (xb k) (some (dists k - 1))
        else some (dists k * xbErr cfg k)
      let jac : Matrix (Fin ny) (Fin (nx + nb)) ℚ := fun j k =>
        fclean (fdiv (fsub (yDist k j) (y j)) (dist k))
      .ok (fun j k => jac j (Fin.castAdd nb k),
           fun j k => jac j (Fin.natAdd nx k))

/-- Repair of one state component (pyOEcore.py 415-445): reset to the prior
value when the component undercuts a configured lower limit, then when it
exceeds a configured upper limit, then when it is NaN.  Comparisons against
NaN are false, as in Python. -/
def repairComp (xa : ℚ) (lo hi : Option ℚ) (v : FV) : FV :=
  let v1 := if match lo, v with
      | some l, some q => decide (q < l)
      | _, _ => false then some xa else v
  let v2 := if match hi, v1 with
      | some h, some q => decide (h < q)
      | _, _ => false then some xa else v1
  if v2 = none then some xa else v2

/-- Per-component bound/NaN repair of the freshly updated state vector. -/
def boundRepair {nx ny nb : ℕ} (cfg : OEConfig nx ny nb)
    (x : Fin nx → FV) : Fin nx → FV :=
  fun j => repairComp (cfg.x_a j) (cfg.x_lowerLimit j) (cfg.x_upperLimit j)
    (x j)

/-- Snapshot of the values the source stores for one loop iteration
(`K_i[i]`, `K_b_i[i]`, `S_aposterior_i[i]`, `A_i[i]`, `dgf_i[i]`, `d_i2[i]`,
`gam_i[i]`).  The Shannon information content `H_i` involves a logarithm,
is transcendental, and is never read by any control flow or claim, so it is
not modelled. -/
structure IterData (nx ny nb : ℕ) where
  K : Matrix (Fin ny) (Fin nx) ℚ
  Kb : Matrix (Fin ny) (Fin nb) ℚ
  S_ap : Matrix (Fin nx) (Fin nx) ℚ
  A : Matrix (Fin nx) (Fin nx) ℚ
  dgf : ℚ
  d2 : FV
  gam : ℚ

instance {nx ny nb : ℕ} : Inhabited (IterData nx ny nb) :=
  ⟨⟨0, 0, 0, 0, 0, none, 1⟩⟩

instance {nx ny nb : ℕ} : DecidableEq (IterData nx ny nb) := fun a b =>
  decidable_of_iff
    (a.K = b.K ∧ a.Kb = b.Kb ∧ a.S_ap = b.S_ap ∧ a.A = b.A ∧ a.dgf = b.dgf
      ∧ a.d2 = b.d2 ∧ a.gam = b.gam)
    (by cases a; cases b; simp)

/-- Body of one retrieval loop iteration (pyOEcore.py 359-456): Jacobian,
effective measurement covariance, damped normal equations, posterior
covariance, averaging kernel, state update, forward evaluation of the new
state (before repair, as in the source), bound/NaN repair, and the
convergence statistic.  Strict matrix inversions propagate `ValueError`. -/
def iterBody {nx ny nb : ℕ} (cfg : OEConfig nx ny nb)
    (S_a_inv : Matrix (Fin nx) (Fin nx) ℚ) (gam_i : ℚ)
    (x_cur : Fin nx → FV) (y_cur : Fin ny → FV) :
    Except PyErr (IterData nx ny nb × (Fin nx → FV) × (Fin ny → FV)) :=
  match getJacobian cfg (xbConcat x_cur cfg.b_p) y_cur with
  | .error e => .error e
  | .ok (K, Kb) =>
    let S_Ep_b : Matrix (Fin ny) (Fin ny) ℚ :=
      if 0 < nb then Kb * cfg.S_b * Kbᵀ else 0
    let S_Ep := cfg.S_y + S_Ep_b
    match invertMatrixQ S_Ep with
    | .error e => .error e
    | .ok S_Ep_inv =>
      let B := gam_i • S_a_inv + Kᵀ * S_Ep_inv * K
      match invertMatrixQ B with
      | .error e => .error e
      | .ok B_inv =>
        let S_ap := B_inv * (gam_i ^ 2 • S_a_inv + Kᵀ * S_Ep_inv * K) * B_inv
        let G := B_inv * (Kᵀ * S_Ep_inv)
        let A := G * K
        let x_raw : Fin nx → FV := fun k =>
          fadd (some (cfg.x_a k))
            (mulVecFV (B_inv * Kᵀ * S_Ep_inv)
              (fun j => fadd (fsub (some (cfg.y_obs j)) (y_cur j))
                (mulVecFV K (fun l => fsub (x_cur l) (some (cfg.x_a l))) j))
              k)
        let y_next := cfg.forward (xbConcat x_raw cfg.b_p)
        let dgf := Matrix.trace A
        let x_next := boundRepair cfg x_raw
        match invertMatrixQ S_ap with
        | .error e => .error e
        | .ok S_ap_inv =>
          let dx : Fin nx → FV := fun k => fsub (x_cur k) (x_next k)
          let d2 := fvDot dx (mulVecFV S_ap_inv dx)
          .ok (⟨K, Kb, S_ap, A, dgf, d2, gam_i⟩, x_next, y_next)

/-- How the retrieval loop ended: break because the previous iteration
already flagged convergence (the confirmation pass, pyOEcore.py 459-465),
break because the wall-clock budget was exceeded (467-475), break because
the degrees of freedom reached zero (488-496), or exhaustion of the
iteration range (`maxIter` reached). -/
inductive ExitKind
  | confirmBreak
  | timeBreak
  | dgfBreak
  | exhausted
  deriving DecidableEq, Repr

/-- Outcome of the per-iteration termination ladder. -/
inductive LoopDecision
  | halt (converged : Bool) (ek : ExitKind)
  | next (converged : Bool)
  deriving DecidableEq, Repr

/-- Convergence criterion (pyOEcore.py 479-481):
`|d_i2| < y_n/convergenceFactor` and `gam == 1` and `d_i2 != 0`, with NumPy
NaN semantics (`|NaN| < t` is false, `NaN != 0` is true). -/
def convCritB (thr : ℚ) (d2 : FV) (gam : ℚ) : Bool :=
  fvAbsLt d2 thr && decide (gam = 1) && fvNe0 d2

/-- Termination ladder of one iteration (pyOEcore.py 459-502), evaluated
after the body: stop if the previous iteration flagged convergence; else
stop if time is exceeded; else (skipped on the first iteration) flag
convergence when the criterion holds, or stop with `converged=False` when
`i > 1` and the degrees of freedom are zero; otherwise continue. -/
def stepDecision (thr : ℚ) (convergedPrev timeExc : Bool) (i : ℕ)
    (d2 : FV) (gam dgf : ℚ) : LoopDecision :=
  if convergedPrev then .halt true .confirmBreak
  else if timeExc then .halt false .timeBreak
  else if i ≠ 0 then
    if convCritB thr d2 gam then .next true
    else if 1 < i ∧ dgf = 0 then .halt false .dgfBreak
    else .next false
  else .next false

/-- Raw outcome of the iteration loop: the convergence flag, the way the
loop ended, the loop index `lastI` at exit (the value of Python's `i` after
the loop, used for truncation and as `convI`), and the truncated histories
`hist = zip(K_i, K_b_i, S_aposterior_i, A_i, dgf_i, d_i2, gam_i)[0..lastI]`,
`xs = x_i[0..lastI+1]`, `ys = y_i[0..lastI+1]`. -/
structure LoopOut (nx ny nb : ℕ) where
  converged : Bool
  exitKind : ExitKind
  lastI : ℕ
  hist : List (IterData nx ny nb)
  xs : List (Fin nx → FV)
  ys : List (Fin ny → FV)

/-- The iteration loop (pyOEcore.py 357-502), by recursion on the remaining
fuel (`maxIter - i`).  The accumulators carry the history written by the
iterations so far; when the fuel runs out, the `for` range is exhausted and
the loop falls through with the current convergence flag. -/
def runLoop {nx ny nb : ℕ} (cfg : OEConfig nx ny nb)
    (S_a_inv : Matrix (Fin nx) (Fin nx) ℚ) (gam : List ℚ)
    (timeExc : ℕ → Bool) :
    ℕ → ℕ → Bool → List (IterData nx ny nb) → List (Fin nx → FV) →
    List (Fin ny → FV) → (Fin nx → FV) → (Fin ny → FV) →
    Except PyErr (LoopOut nx ny nb)
  | 0, i, conv, hist, xs, ys, _, _ => .ok ⟨conv, .exhausted, i - 1, hist, xs, ys⟩
  | fuel + 1, i, conv, hist, xs, ys, x_cur, y_cur =>
    match iterBody cfg S_a_inv (gam.getD i 1) x_cur y_cur with
    | .error e => .error e
    | .ok (d, x_next, y_next) =>
      match stepDecision ((ny : ℚ) / cfg.convergenceFactor) conv (timeExc i)
          i d.d2 d.gam d.dgf with
      | .halt c ek => .ok ⟨c, ek, i, hist ++ [d], xs ++ [x_next], ys ++ [y_next]⟩
      | .next c =>
        runLoop cfg S_a_inv gam timeExc fuel (i + 1) c (hist ++ [d])
          (xs ++ [x_next]) (ys ++ [y_next]) x_next y_next

/-- The damping-factor schedule `gam_i` (pyOEcore.py 341-344): all ones,
with a caller-supplied list overriding the first entries.  An empty list is
falsy in Python and leaves the schedule untouched, which coincides with
appending ones. -/
def mkGam (gf : Option (List ℚ)) (maxIter : ℕ) : List ℚ :=
  match gf with
  | none => List.replicate maxIter 1
  | some l => l ++ List.replicate (maxIter - l.length) 1

/-- The `assert len(self.gammaFactor) <= maxIter` guard, run only when
`gammaFactor` is truthy (neither `None` nor the empty list). -/
def gammaLenBad {nx ny nb : ℕ} (cfg : OEConfig nx ny nb)
    (maxIter : ℕ) : Prop :=
  match cfg.gammaFactor with
  | some l => l ≠ [] ∧ maxIter < l.length
  | none => False

instance {nx ny nb : ℕ} (cfg : OEConfig nx ny nb) (maxIter : ℕ) :
    Decidable (gammaLenBad cfg maxIter) := by
  unfold gammaLenBad
  match cfg.gammaFactor with
  | some l => exact instDecidableAnd
  | none => exact instDecidableFalse

/-- Finalized outcome of `doRetrieval` (pyOEcore.py 504-548).  The derived
solution fields are `Option`s: `none` models the scalar `np.nan` sentinel
assigned on non-convergent termination.  `x_op_err` is the elementwise
square root of the diagonal of `S_op`; square roots are irrational, so the
embedding stores the squares, `x_op_err2 = diag(S_op)`.  `exitKind` and
`lastI` record which exit was taken and the final loop index (determined by
the run, not extra state). -/
structure RunResult (nx ny nb : ℕ) where
  converged : Bool
  exitKind : ExitKind
  lastI : ℕ
  hist : List (IterData nx ny nb)
  xs : List (Fin nx → FV)
  ys : List (Fin ny → FV)
  convI : ℤ
  x_op : Option (Fin nx → FV)
  y_op : Option (Fin ny → FV)
  S_op : Option (Matrix (Fin nx) (Fin nx) ℚ)
  x_op_err2 : Option (Fin nx → ℚ)
  dgf : Option ℚ
  dgf_x : Option (Fin nx → ℚ)
  S_Ep : Option (Matrix (Fin ny) (Fin ny) ℚ)

/-- All-NaN placeholder state vector (used only as a `getD` default). -/
def junkVec (n : ℕ) : Fin n → FV := fun _ => none

/-- Finalization after the loop (pyOEcore.py 515-548): on convergence,
`convI` is the final loop index and the solution fields are read off the
histories at `convI` (`S_Ep` is recomputed from `K_b_i[convI]`); otherwise
`convI = -9999` and every derived field is the NaN sentinel. -/
def finalize {nx ny nb : ℕ} (cfg : OEConfig nx ny nb)
    (out : LoopOut nx ny nb) : RunResult nx ny nb :=
  if out.converged then
    let d := out.hist.getD out.lastI default
    { converged := true, exitKind := out.exitKind, lastI := out.lastI,
      hist := out.hist, xs := out.xs, ys := out.ys,
      convI := (out.lastI : ℤ),
      x_op := some (out.xs.getD out.lastI (junkVec nx)),
      y_op := some (out.ys.getD out.lastI (junkVec ny)),
      S_op := some d.S_ap,
      x_op_err2 := some fun k => d.S_ap k k,
      dgf := some d.dgf,
      dgf_x := some fun k => d.A k k,
      S_Ep := some (cfg.S_y + d.Kb * cfg.S_b * (d.Kb)ᵀ) }
  else
    { converged := false, exitKind := out.exitKind, lastI := out.lastI,
      hist := out.hist, xs := out.xs, ys := out.ys,
      convI := -9999, x_op := none, y_op := none, S_op := none,
      x_op_err2 := none, dgf := none, dgf_x := none, S_Ep := none }

/-- Initial state of the loop (pyOEcore.py 346-355): the first guess
`x_i[0]` (the prior mean when `x_0` is absent) and its forward evaluation
`y_i[0]`. -/
def initState {nx ny nb : ℕ} (cfg : OEConfig nx ny nb)
    (x_0 : Option (Fin nx → FV)) : (Fin nx → FV) × (Fin ny → FV) :=
  let x0 := x_0.getD fun k => some (cfg.x_a k)
  (x0, cfg.forward (xbConcat x0 cfg.b_p))

/-- Embedding of `optimalEstimation.doRetrieval` (pyOEcore.py 304-548).
`timeExc i` is the oracle for the wall-clock check
`(time.time()-startTime) > maxTime` at iteration `i`. -/
def doRetrieval {nx ny nb : ℕ} (cfg : OEConfig nx ny nb) (maxIter : ℕ)
    (x_0 : Option (Fin nx → FV)) (timeExc : ℕ → Bool) :
    Except PyErr (RunResult nx ny nb) :=
  if maxIter = 0 then .error .assertionError
  else if gammaLenBad cfg maxIter then .error .assertionError
  else
    match invertMatrixQ cfg.S_a with
    | .error e => .error e
    | .ok S_a_inv =>
      match runLoop cfg S_a_inv (mkGam cfg.gammaFactor maxIter) timeExc
          maxIter 0 false [] [(initState cfg x_0).1] [(initState cfg x_0).2]
          (initState cfg x_0).1 (initState cfg x_0).2 with
      | .error e => .error e
      | .ok out => .ok (finalize cfg out)

/-- Oracle for `scipy.linalg.eig(S, left=True, right=False)`: eigenvalues
and left eigenvectors of a matrix.  Eigendecomposition is transcendental, so
it enters the embedding as a function parameter; theorems that depend on it
being a genuine decomposition say so by hypothesis.  Covariance matrices are
real and symmetric, so the eigenvalues are modelled as rationals rather than
complex pairs (`np.real_if_close` is then the identity). -/
abbrev EigOracle (m : ℕ) :=
  Matrix (Fin m) (Fin m) ℚ → (Fin m → ℚ) × Matrix (Fin m) (Fin m) ℚ

/-- Embedding of `_estimateChi2(S, z, atol)` (pyOEcore.py 1272-1306):
project `z` on the left eigenvectors, retain the eigenvalue/component pairs
with `|eigenvalue| > atol`, report the number retained as the degrees of
freedom, and return the list of `component²/eigenvalue` terms. -/
def estimateChi2 {m : ℕ} (eig : EigOracle m) (S : Matrix (Fin m) (Fin m) ℚ)
    (z : Fin m → ℚ) (atol : ℚ) : List ℚ × ℕ :=
  let p := eig S
  let eigVals := p.1
  let eigVecsL := p.2
  let zPrime := Matrix.mulVec eigVecsLᵀ z
  let notNull : Fin m → Bool := fun k => decide (atol < |eigVals k|)
  let retained := (List.finRange m).filter fun k => notNull k
  (retained.map fun k => zPrime k ^ 2 / eigVals k, retained.length)

/-- Embedding of `_testChi2(S, z, significance, atol)` (pyOEcore.py
1309-1341): the observed statistic is the sum of the retained terms
(`np.real_if_close` is the identity here), the critical value is
`scipy.stats.chi2.isf(significance, dof)`, supplied as the oracle `isf`. -/
def testChi2 {m : ℕ} (eig : EigOracle m) (isf : ℚ → ℕ → ℚ)
    (S : Matrix (Fin m) (Fin m) ℚ) (z : Fin m → ℚ)
    (significance atol : ℚ) : ℚ × ℚ :=
  let p := estimateChi2 eig S z atol
  (p.1.sum, isf significance p.2)

/-- Fields of a finished engine read by
`chiSquareTestYOptimalObservation` (pyOEcore.py 712-750): the convergence
flag, `S_a`, the recomputed `S_Ep`, `K_i[convI]`, `y_i[convI]` and `y_obs`
(the latter projected to their rational values; the claims about this test
concern converged retrievals with finite measurements). -/
structure DiagState (nx ny : ℕ) where
  converged : Bool
  S_a : Matrix (Fin nx) (Fin nx) ℚ
  S_Ep : Matrix (Fin ny) (Fin ny) ℚ
  K : Matrix (Fin ny) (Fin nx) ℚ
  y_conv : Fin ny → ℚ
  y_obs : Fin ny → ℚ

/-- Embedding of `chiSquareTestYOptimalObservation` (pyOEcore.py 712-750):
`assert self.converged`; then Rodgers eq. 12.9,
`S_deyd = S_Ep·(K·S_a·Kᵀ + S_Ep)⁻¹·S_Ep` with a strict inversion, residual
`delta_y = y_i[convI] - y_obs`, tested by `_testChi2`. -/
def chiSquareTestYOptimalObservation {nx ny : ℕ} (d : DiagState nx ny)
    (significance atol : ℚ) (eig : EigOracle ny) (isf : ℚ → ℕ → ℚ) :
    Except PyErr (ℚ × ℚ) :=
  if d.converged = false then .error .assertionError
  else
    match invertMatrixQ (d.K * d.S_a * (d.K)ᵀ + d.S_Ep) with
    | .error e => .error e
    | .ok kSaKSep_inv =>
      let s_deyd := d.S_Ep * kSaKSep_inv * d.S_Ep
      let delta_y := fun j => d.y_conv j - d.y_obs j
      .ok (testChi2 eig isf s_deyd delta_y significance atol)

/-- The `self.chi2Results` DataFrame: four chi-square tests with observed
and critical values. -/
structure Chi2Frame where
  chi2value : Fin 4 → ℚ
  chi2critical : Fin 4 → ℚ

/-- Dynamic attribute state of the engine object relevant to the diagnostics
entry points: the convergence flag and whether the attributes
`self.chi2Results` and `self.trueLinearity` have ever been assigned
(`none` = never assigned, so that reading them raises `AttributeError`).
A freshly constructed engine (pyOEcore.py 133-218) has both unassigned. -/
structure DiagAttrs where
  converged : Bool
  chi2Results : Option Chi2Frame
  trueLinearity : Option ℚ

/-- Embedding of `chiSquareTest` (pyOEcore.py 641-710).  When the engine has
not converged, the source prints a notice and builds a NaN DataFrame but
does **not** assign it (the expression statement at lines 680-684 discards
its value); execution then falls through to line 706, which reads
`self.chi2Results` — raising `AttributeError` unless a previous converged
call assigned it.  When converged, the four sub-tests are computed and
assigned; their numeric payload (lines 686-704) is passed in as `computed`,
and the returned `passed` series is `chi2value < chi2critical`. -/
def chiSquareTest (a : DiagAttrs) (computed : Chi2Frame) :
    Except PyErr ((Fin 4 → Bool) × (Fin 4 → ℚ) × (Fin 4 → ℚ)) :=
  let results : Option Chi2Frame :=
    if a.converged then some computed else a.chi2Results
  match results with
  | none => .error .attributeError
  | some r =>
    .ok (fun t => decide (r.chi2value t < r.chi2critical t),
         r.chi2value, r.chi2critical)

/-- Return value of `linearityTest`: the non-converged early return is the
pair `(self.linearity, self.trueLinearity)` (pyOEcore.py 606), the converged
path returns the triple of line 638. -/
inductive LinearityOut (nx : ℕ) (α : Type)
  | nonConv (linearity : Fin nx → FV) (trueLin : ℚ)
  | conv (payload : α)

/-- Embedding of the entry guard of `linearityTest` (pyOEcore.py 600-614).
The sentinels `self.linearity = NaN`, `self.trueLinearityChi2 = NaN` are
assigned first; if the engine has not converged the source prints a notice
and returns `self.linearity, self.trueLinearity` — but `self.trueLinearity`
is only ever assigned on a converged run with `x_truth` (line 633), so on a
fresh engine the read raises `AttributeError`.  The converged branch
(lines 607-639) is passed in abstractly as `payload`; the claim settled
against this function concerns only the non-converged path. -/
def linearityTest {nx : ℕ} {α : Type} (a : DiagAttrs) (payload : α) :
    Except PyErr (LinearityOut nx α) :=
  if a.converged = false then
    match a.trueLinearity with
    | none => .error .attributeError
    | some tl => .ok (.nonConv (fun _ => none) tl)
  else .ok (.conv payload)

/-- Concrete 1-D test problem used by witnesses and counterexamples:
prior `x_a = 0`, `S_a = [[1]]`, observation `y_obs = 2`, `S_y = [[1]]`,
mildly nonlinear forward model `f(x) = x + x²/100`, additive disturbance
factor `1`, no parameter vector, no bounds, default `convergenceFactor=10`. -/
def exCfg : OEConfig 1 1 0 where
  x_a := fun _ => 0
  S_a := fun _ _ => 1
  x_a_err := fun _ => 1
  y_obs := fun _ => 2
  S_y := fun _ _ => 1
  b_p := fun k => k.elim0
  S_b := fun k _ => k.elim0
  b_p_err := fun k => k.elim0
  forward := fun xb _ =>
    match xb 0 with
    | some q => some (q + q ^ 2 / 100)
    | none => none
  x_lowerLimit := fun _ => none
  x_upperLimit := fun _ => none
  useFactorInJac := false
  gammaFactor := none
  disturbance := .uniform 1
  convergenceFactor := 10

/-- The all-false time oracle: the wall-clock budget is never exceeded. -/
def neverLate : ℕ → Bool := fun _ => false

/-- Float matrix with the given rational entries (helper for witnesses). -/
def somesM {m n : ℕ} (M : Matrix (Fin m) (Fin n) ℚ) :
    Matrix (Fin m) (Fin n) FV := fun i j => some (M i j)

/-- Fresh engine attributes (pyOEcore.py 133-218): `converged` is `False`
and neither `self.chi2Results` nor `self.trueLinearity` has ever been
assigned. -/
def freshDiagAttrs : DiagAttrs := ⟨false, none, none⟩

/-- Concrete non-converged engine state for the direct sub-test call. -/
def diagStateNotConv : DiagState 1 1 :=
  ⟨false, fun _ _ => 1, fun _ _ => 1, fun _ _ => 1, fun _ => 0, fun _ => 0⟩

/-- Diagonal-reading eigendecomposition oracle, exact for diagonal
matrices: the eigenvalues are the diagonal entries and the left
eigenvectors the standard basis. -/
def diagEig (m : ℕ) : EigOracle m := fun S => (fun k => S k k, 1)

/-- Concrete converged engine state (1-D, all-ones matrices, and an optimal
measurement equal to the observation) for the C9 witness. -/
def diagStateConv : DiagState 1 1 :=
  ⟨true, fun _ _ => 1, fun _ _ => 1, fun _ _ => 1, fun _ => 2, fun _ => 2⟩

/-- Multiplicative-disturbance variant of the 1-D test problem. -/
def exCfgMul : OEConfig 1 1 0 :=
  { exCfg with useFactorInJac := true, disturbance := .uniform 2 }

/-- Zero-disturbance variant of the 1-D test problem (additive magnitude
zero). -/
def exCfgZeroDist : OEConfig 1 1 0 :=
  { exCfg with disturbance := .uniform 0 }


/-- Whether the data stored for iteration `j` of a run satisfies the
convergence criterion (with the run's threshold
`y_n/convergenceFactor`). -/
def critAt {nx ny nb : ℕ} (cfg : OEConfig nx ny nb)
    (hist : List (IterData nx ny nb)) (j : ℕ) : Bool :=
  convCritB ((ny : ℚ) / cfg.convergenceFactor) (hist.getD j default).d2
    (hist.getD j default).gam

/-- Established facts about a successfully terminated loop, proved by
induction in `runLoop_post`: history lengths, the bound on the final index,
that a converged run ends by the confirmation break or by range exhaustion,
where the criterion was first satisfied in each case, and — for the
confirmation break — that the data stored at the accepted index was produced
by the iteration body evaluated at the accepted state. -/
def LoopPost {nx ny nb : ℕ} (cfg : OEConfig nx ny nb)
    (S_a_inv : Matrix (Fin nx) (Fin nx) ℚ) (gam : List ℚ) (bound : ℕ)
    (out : LoopOut nx ny nb) : Prop :=
  out.hist.length = out.lastI + 1
  ∧ out.xs.length = out.lastI + 2
  ∧ out.ys.length = out.lastI + 2
  ∧ out.lastI + 1 ≤ bound
  ∧ (out.converged = true →
      out.exitKind = .confirmBreak ∨ out.exitKind = .exhausted)
  ∧ (out.converged = true → out.exitKind = .exhausted →
      1 ≤ out.lastI ∧ critAt cfg out.hist out.lastI = true
        ∧ ∀ j, 1 ≤ j → j < out.lastI → critAt cfg out.hist j = false)
  ∧ (out.exitKind = .confirmBreak →
      out.converged = true
      ∧ 2 ≤ out.lastI
      ∧ critAt cfg out.hist (out.lastI - 1) = true
      ∧ (∀ j, 1 ≤ j → j < out.lastI - 1 → critAt cfg out.hist j = false)
      ∧ iterBody cfg S_a_inv (gam.getD out.lastI 1)
          (out.xs.getD out.lastI (junkVec nx))
          (out.ys.getD out.lastI (junkVec ny))
        = .ok (out.hist.getD out.lastI default,
            out.xs.getD (out.lastI + 1) (junkVec nx),
            out.ys.getD (out.lastI + 1) (junkVec ny)))

/-- Placeholder run result (used only as a `getD` default in witnesses). -/
def junkResult (nx ny nb : ℕ) : RunResult nx ny nb :=
  ⟨false, .exhausted, 0, [], [], [], 0, none, none, none, none, none, none,
    none⟩

/-!  Theorems.  General lemmas first, then one theorem per claim (with
witnesses and counterexamples as required). -/

theorem detQ_eq_det : ∀ {n : ℕ} (A : Matrix (Fin n) (Fin n) ℚ), detQ A = A.det
  | 0, A => by simp [detQ, Matrix.det_fin_zero]
  | n + 1, A => by
    rw [show detQ A = ∑ j : Fin (n + 1), (-1) ^ (j : ℕ) * A 0 j *
        detQ (A.submatrix Fin.succ j.succAbove) from rfl,
      Matrix.det_succ_row_zero]
    exact Finset.sum_congr rfl fun j _ => by rw [detQ_eq_det]

theorem adjQ_eq_adjugate {n : ℕ} (A : Matrix (Fin n) (Fin n) ℚ) :
    adjQ A = A.adjugate := by
  funext i j
  rw [adjQ, Matrix.adjugate_apply, detQ_eq_det]

theorem qInverse_mul_self {n : ℕ} (A : Matrix (Fin n) (Fin n) ℚ)
    (h : detQ A ≠ 0) : A * qInverse A = 1 := by
  rw [qInverse, adjQ_eq_adjugate, detQ_eq_det] at *
  rw [Matrix.mul_smul, Matrix.mul_adjugate, smul_smul,
    inv_mul_cancel₀ h, one_smul]

theorem invertMatrix_someMatrix {n : ℕ} (M : Matrix (Fin n) (Fin n) ℚ) :
    invertMatrix (fun i j => some (M i j)) true
      = (invertMatrixQ M).map fun B i j => some (B i j) := by
  unfold invertMatrix invertMatrixQ
  have hno : ¬∃ i j, (fun i j => some (M i j) : Matrix (Fin n) (Fin n) FV) i j
      = none := by
    rintro ⟨i, j, h⟩; exact Option.noConfusion h
  rw [if_neg hno]
  have hstrip : stripNaN (fun i j => some (M i j)) = M := rfl
  rw [hstrip]
  by_cases hdet : detQ M = 0
  · rw [if_pos hdet, if_pos hdet, if_pos rfl]; rfl
  · rw [if_neg hdet, if_neg hdet]; rfl

/-- Claim C3: `invertMatrix` returns an all-NaN matrix (without raising) for
any input containing NaN; for a NaN-free singular input (idealizing a
condition number beyond the reciprocal of machine epsilon, see the header)
it raises when strict (`raise_error = true`, the default at every call site)
and returns an all-NaN matrix when lenient; otherwise it returns the
standard inverse, so `A · invert(A) = I` for well-conditioned `A`. -/
theorem invertMatrix_policy {n : ℕ} (A : Matrix (Fin n) (Fin n) FV) :
    ((∃ i j, A i j = none) →
      ∀ strict, invertMatrix A strict = .ok (nanMatrix n))
    ∧ ((∀ i j, A i j ≠ none) → detQ (stripNaN A) = 0 →
      invertMatrix A true = .error .valueError
        ∧ invertMatrix A false = .ok (nanMatrix n))
    ∧ ((∀ i j, A i j ≠ none) → detQ (stripNaN A) ≠ 0 →
      (∀ strict, invertMatrix A strict
          = .ok (fun i j => some (qInverse (stripNaN A) i j)))
        ∧ stripNaN A * qInverse (stripNaN A) = 1) := by
  refine ⟨fun h strict => ?_, fun h hdet => ?_, fun h hdet => ?_⟩
  · unfold invertMatrix; rw [if_pos h]
  · have hno : ¬∃ i j, A i j = none := fun ⟨i, j, hij⟩ => h i j hij
    exact ⟨by simp [invertMatrix, hno, hdet], by simp [invertMatrix, hno, hdet]⟩
  · have hno : ¬∃ i j, A i j = none := fun ⟨i, j, hij⟩ => h i j hij
    exact ⟨fun strict => by simp [invertMatrix, hno, hdet],
      qInverse_mul_self _ hdet⟩

/-- Witness for C3 at concrete inputs: a 1×1 NaN matrix, the singular matrix
`[[1,2],[2,4]]`, and the well-conditioned matrix `[[2,1],[1,1]]`. -/
theorem invertMatrix_policy_witness :
    invertMatrix (fun _ _ => none : Matrix (Fin 1) (Fin 1) FV) true
        = .ok (nanMatrix 1)
    ∧ invertMatrix (somesM !![1, 2; 2, 4]) true = .error .valueError
    ∧ invertMatrix (somesM !![2, 1; 1, 1]) true
        = .ok (fun i j => some (qInverse (stripNaN (somesM !![2, 1; 1, 1])) i j))
    ∧ stripNaN (somesM !![2, 1; 1, 1])
        * qInverse (stripNaN (somesM !![2, 1; 1, 1])) = 1 :=
  ⟨(invertMatrix_policy _).1 ⟨0, 0, rfl⟩ true,
   ((invertMatrix_policy _).2.1 (by decide) (by decide)).1,
   ((invertMatrix_policy _).2.2 (by decide) (by decide)).1 true,
   ((invertMatrix_policy _).2.2 (by decide) (by decide)).2⟩

/-- Claim C2: in the per-iteration termination ladder (with the previous
iteration not converged and time not exceeded), the convergence check is
skipped on the first iteration; otherwise `converged` is set to `True`
exactly when `|d_i2| < y_n/convergenceFactor` and `gam_i = 1` and
`d_i2 ≠ 0`; and when that criterion fails, `i > 1` and `dgf_i = 0`, the loop
stops immediately with `converged := False`. -/
theorem stepDecision_convergence_check (ny : ℕ) (cf : ℚ) (i : ℕ) (d2 : FV)
    (gam dgf : ℚ) :
    (stepDecision ((ny : ℚ) / cf) false false 0 d2 gam dgf = .next false)
    ∧ (i ≠ 0 →
        ((stepDecision ((ny : ℚ) / cf) false false i d2 gam dgf = .next true)
          ↔ (fvAbsLt d2 ((ny : ℚ) / cf) = true ∧ gam = 1 ∧ fvNe0 d2 = true)))
    ∧ (i ≠ 0 →
        ¬(fvAbsLt d2 ((ny : ℚ) / cf) = true ∧ gam = 1 ∧ fvNe0 d2 = true) →
        1 < i → dgf = 0 →
        stepDecision ((ny : ℚ) / cf) false false i d2 gam dgf
          = .halt false .dgfBreak) := by
  refine ⟨by simp [stepDecision], fun hi => ?_, fun hi hcrit h1 h0 => ?_⟩
  · constructor
    · intro h
      by_cases hc : convCritB ((ny : ℚ) / cf) d2 gam = true
      · simpa [convCritB, Bool.and_eq_true, decide_eq_true_eq, and_assoc]
          using hc
      · exfalso
        rw [stepDecision, if_neg (by simp), if_neg (by simp), if_pos hi,
          if_neg hc] at h
        split at h <;> simp_all
    · rintro ⟨ha, hg, hn⟩
      have hc : convCritB ((ny : ℚ) / cf) d2 gam = true := by
        simp [convCritB, ha, hg, hn]
      rw [stepDecision, if_neg (by simp), if_neg (by simp), if_pos hi,
        if_pos hc]
  · have hc : ¬convCritB ((ny : ℚ) / cf) d2 gam = true := fun hcb =>
      hcrit (by simpa [convCritB, Bool.and_eq_true, decide_eq_true_eq,
        and_assoc] using hcb)
    rw [stepDecision, if_neg (by simp), if_neg (by simp), if_pos hi,
      if_neg hc, if_pos ⟨h1, h0⟩]

/-- Witness for C2: the criterion fires at `i = 2` for a small nonzero
statistic with unit damping; the zero-information stop fires at `i = 2` for
a NaN statistic and zero degrees of freedom. -/
theorem stepDecision_convergence_check_witness :
    stepDecision (((1 : ℕ) : ℚ) / 10) false false 2 (some (1 / 100)) 1 5
        = .next true
    ∧ stepDecision (((1 : ℕ) : ℚ) / 10) false false 2 none 1 0
        = .halt false .dgfBreak :=
  ⟨((stepDecision_convergence_check 1 10 2 (some (1 / 100)) 1 5).2.1
      (by decide)).mpr ⟨by decide, rfl, by decide⟩,
   (stepDecision_convergence_check 1 10 2 none 1 0).2.2 (by decide)
      (by decide) (by decide) rfl⟩

/-- Claim C7: the per-iteration repair resets each state component that
violates its configured lower or upper limit, or is NaN, to that
component's prior value (not to the limit), and leaves every other
component at its updated value.  The repair is componentwise and a total
function of the state (it only prints, never raises). -/
theorem boundRepair_componentwise {nx ny nb : ℕ} (cfg : OEConfig nx ny nb)
    (x : Fin nx → FV) (j : Fin nx) :
    boundRepair cfg x j =
      if ((match cfg.x_lowerLimit j, x j with
            | some l, some q => decide (q < l)
            | _, _ => false)
          || (match cfg.x_upperLimit j, x j with
            | some u, some q => decide (u < q)
            | _, _ => false)
          || (x j).isNone) = true
      then some (cfg.x_a j) else x j := by
  unfold boundRepair repairComp
  rcases hlo : cfg.x_lowerLimit j with _ | l <;>
    rcases hhi : cfg.x_upperLimit j with _ | u <;>
    rcases hx : x j with _ | q <;>
    simp only [hlo, hhi, hx, Option.isNone_none, Option.isNone_some] <;>
    split_ifs <;> simp_all <;> exfalso <;> (try casesm* _ ∨ _) <;> linarith

/-- Claim C5 (code bug): on a freshly constructed, non-converged engine the
diagnostics do **not** return NaN sentinels with a notice —
`chiSquareTest` builds the NaN frame but discards it (lines 680-684 are an
unassigned expression) and then reads the never-assigned
`self.chi2Results` at line 706 (`AttributeError`); `linearityTest` returns
the never-assigned `self.trueLinearity` at line 606 (`AttributeError`);
`chiSquareTestYOptimalObservation` fails its `assert self.converged` at
line 737 (`AssertionError`). -/
theorem diagnostics_not_converged_raise :
    chiSquareTest freshDiagAttrs ⟨fun _ => 0, fun _ => 0⟩
        = .error .attributeError
    ∧ @linearityTest 1 ℚ freshDiagAttrs 0
        = .error .attributeError
    ∧ chiSquareTestYOptimalObservation diagStateNotConv (1 / 20) (1 / 100000)
        (fun S => (fun k => S k k, 1)) (fun _ _ => 0)
        = .error .assertionError :=
  ⟨rfl, rfl, rfl⟩

theorem list_filter_map_sum {α : Type} (l : List α) (p : α → Bool)
    (f : α → ℚ) :
    ((l.filter p).map f).sum = (l.map fun a => if p a then f a else 0).sum := by
  induction l with
  | nil => rfl
  | cons a t ih => by_cases h : p a <;> simp [List.filter_cons, h, ih]

theorem list_filter_length_sum {α : Type} (l : List α) (p : α → Bool) :
    (l.filter p).length
      = (l.map fun a => if p a then (1 : ℕ) else 0).sum := by
  induction l with
  | nil => rfl
  | cons a t ih =>
    by_cases h : p a <;> simp [List.filter_cons, h, ih, Nat.add_comm]

/-- Claim C8: for a covariance `S` and residual `z`, the generalized
chi-square computation eigendecomposes `S` (the decomposition enters as the
oracle `eig`, required by hypothesis to consist of genuine left
eigenvectors), projects `z` onto the left eigenvectors, retains exactly the
pairs with `|eigenvalue| > atol`, reports the degrees of freedom as the
number retained, and returns the statistic as the sum over retained pairs of
`(projected component)²/eigenvalue`. -/
theorem estimateChi2_spec {m : ℕ} (eig : EigOracle m) (isf : ℚ → ℕ → ℚ)
    (S : Matrix (Fin m) (Fin m) ℚ) (z : Fin m → ℚ) (significance atol : ℚ)
    (_hdecomp : ∀ k, Sᵀ.mulVec (fun i => (eig S).2 i k)
        = (eig S).1 k • fun i => (eig S).2 i k) :
    (estimateChi2 eig S z atol).2
        = (Finset.univ.filter fun k => atol < |(eig S).1 k|).card
    ∧ (testChi2 eig isf S z significance atol).1
        = ∑ k in Finset.univ.filter (fun k => atol < |(eig S).1 k|),
            Matrix.mulVec ((eig S).2)ᵀ z k ^ 2 / (eig S).1 k := by
  constructor
  · show ((List.finRange m).filter
        fun k => decide (atol < |(eig S).1 k|)).length = _
    rw [list_filter_length_sum, ← List.ofFn_eq_map, List.sum_ofFn,
      Finset.card_filter]
    exact Finset.sum_congr rfl fun k _ => by simp
  · show (((List.finRange m).filter
        fun k => decide (atol < |(eig S).1 k|)).map
          fun k => Matrix.mulVec ((eig S).2)ᵀ z k ^ 2 / (eig S).1 k).sum = _
    rw [list_filter_map_sum, ← List.ofFn_eq_map, List.sum_ofFn,
      Finset.sum_filter]
    exact Finset.sum_congr rfl fun k _ => by simp

/-- Witness for C8: a diagonal 2×2 covariance with one eigenvalue above and
one below the tolerance; one degree of freedom is retained and the
statistic is `z₀²/9 = 4/9`. -/
theorem estimateChi2_spec_witness :
    (estimateChi2 (diagEig 2) !![(9 : ℚ), 0; 0, 0] ![2, 3] (1 / 100000)).2 = 1
    ∧ (testChi2 (diagEig 2) (fun _ _ => 0) !![(9 : ℚ), 0; 0, 0] ![2, 3]
        (1 / 20) (1 / 100000)).1 = 4 / 9 := by
  have h := estimateChi2_spec (diagEig 2) (fun _ _ => 0)
    !![(9 : ℚ), 0; 0, 0] ![2, 3] (1 / 20) (1 / 100000) (by decide)
  exact ⟨by rw [h.1]; decide, by rw [h.2]; decide⟩

/-- Claim C9: whatever `chiSquareTestYOptimalObservation` returns on a
converged engine, the chi-square value is nonnegative whenever the
eigendecomposition of the derived covariance `S_Ep·(K·S_a·Kᵀ+S_Ep)⁻¹·S_Ep`
has nonnegative eigenvalues (as the eigendecomposition of a genuine
covariance does) and the tolerance is nonnegative (it is `1e-5` by
default); and the value is exactly `0` when `y_op = y_obs` exactly. -/
theorem chiSquareTestYOptimalObservation_spec {nx ny : ℕ}
    (d : DiagState nx ny) (significance atol : ℚ) (eig : EigOracle ny)
    (isf : ℚ → ℕ → ℚ)
    (hconv : d.converged = true) (hatol : 0 ≤ atol)
    (hpsd : ∀ inv, invertMatrixQ (d.K * d.S_a * (d.K)ᵀ + d.S_Ep) = .ok inv →
        ∀ k, 0 ≤ (eig (d.S_Ep * inv * d.S_Ep)).1 k) :
    ∀ chi2 crit,
      chiSquareTestYOptimalObservation d significance atol eig isf
          = .ok (chi2, crit) →
      0 ≤ chi2 ∧ (d.y_conv = d.y_obs → chi2 = 0) := by
  intro chi2 crit hok
  rw [chiSquareTestYOptimalObservation] at hok
  rw [if_neg (by simp [hconv])] at hok
  rcases hinv : invertMatrixQ (d.K * d.S_a * (d.K)ᵀ + d.S_Ep) with e | inv
  · rw [hinv] at hok; cases hok
  · rw [hinv] at hok
    have hval := hpsd inv hinv
    simp only [testChi2, estimateChi2] at hok
    have hchi : chi2 = (((List.finRange ny).filter fun k =>
        decide (atol < |(eig (d.S_Ep * inv * d.S_Ep)).1 k|)).map fun k =>
          Matrix.mulVec ((eig (d.S_Ep * inv * d.S_Ep)).2)ᵀ
            (fun j => d.y_conv j - d.y_obs j) k ^ 2
            / (eig (d.S_Ep * inv * d.S_Ep)).1 k).sum := by
      have := congrArg Prod.fst (Except.ok.inj hok)
      exact this.symm
    constructor
    · rw [hchi]
      apply List.sum_nonneg
      intro q hq
      rcases List.mem_map.mp hq with ⟨k, hk, rfl⟩
      rcases List.mem_filter.mp hk with ⟨-, hk2⟩
      have hlt : atol < |(eig (d.S_Ep * inv * d.S_Ep)).1 k| :=
        of_decide_eq_true hk2
      have hpos : 0 < (eig (d.S_Ep * inv * d.S_Ep)).1 k := by
        have habs : |(eig (d.S_Ep * inv * d.S_Ep)).1 k|
            = (eig (d.S_Ep * inv * d.S_Ep)).1 k := abs_of_nonneg (hval k)
        rw [habs] at hlt
        exact lt_of_le_of_lt hatol hlt
      exact div_nonneg (sq_nonneg _) (le_of_lt hpos)
    · intro hy
      rw [hchi]
      apply List.sum_eq_zero
      intro q hq
      rcases List.mem_map.mp hq with ⟨k, -, rfl⟩
      have hz : (fun j => d.y_conv j - d.y_obs j) = (0 : Fin ny → ℚ) := by
        funext j; rw [hy]; exact sub_self _
      rw [hz, Matrix.mulVec_zero]
      simp

/-- Witness for C9: on `diagStateConv` the test returns chi-square `0`
(and the critical-value oracle `7`); both conclusions are delivered by the
theorem applied at this input. -/
theorem chiSquareTestYOptimalObservation_spec_witness :
    chiSquareTestYOptimalObservation diagStateConv (1 / 20) (1 / 100000)
        (diagEig 1) (fun _ _ => 7) = .ok (0, 7)
    ∧ (0 ≤ (0 : ℚ)
        ∧ (diagStateConv.y_conv = diagStateConv.y_obs → (0 : ℚ) = 0)) := by
  refine ⟨by decide, ?_⟩
  refine chiSquareTestYOptimalObservation_spec diagStateConv (1 / 20)
    (1 / 100000) (diagEig 1) (fun _ _ => 7) rfl (by decide) ?_ 0 7 (by decide)
  intro inv hinv
  rw [show invertMatrixQ (diagStateConv.K * diagStateConv.S_a
      * (diagStateConv.K)ᵀ + diagStateConv.S_Ep) = .ok !![(1 : ℚ) / 2]
    from by decide] at hinv
  cases hinv
  decide

/-- Claim C6: the Jacobian entry for measurement `j` and variable `k` is the
difference quotient (forward model at the point with entry `k` perturbed,
minus the base measurement) divided by the perturbation magnitude — additive
mode: perturbed value `value + factor·sqrt(prior variance)` with magnitude
`factor·sqrt(prior variance)`; multiplicative mode: perturbed value
`value·factor` with magnitude `value·(factor-1)` — with every NaN or
infinite entry replaced by `0` (the outer `fclean`).  The computation fails
(`AssertionError`) when multiplicative mode hits a zero-valued component,
and when an additive perturbation magnitude is zero (the `assert` sits in
the loop over measurements, so it requires a nonempty measurement vector).
The hypothesis ties the stored error vector to the square root of the prior
variances, as computed at construction. -/
theorem getJacobian_spec {nx ny nb : ℕ} (cfg : OEConfig nx ny nb)
    (xb : Fin (nx + nb) → FV) (y : Fin ny → FV)
    (_hsq : ∀ k, xbErr cfg k ^ 2 = xbVariance cfg k ∧ 0 ≤ xbErr cfg k) :
    (cfg.useFactorInJac = true → (∃ k, xb k = some 0) →
      getJacobian cfg xb y = .error .assertionError)
    ∧ (cfg.useFactorInJac = false → 0 < ny →
        (∃ k, resolveDist cfg.disturbance k * xbErr cfg k = 0) →
        getJacobian cfg xb y = .error .assertionError)
    ∧ (cfg.useFactorInJac = false →
        (∀ k, resolveDist cfg.disturbance k * xbErr cfg k ≠ 0) →
        getJacobian cfg xb y = .ok
          (fun j k => fclean (fdiv
            (fsub (cfg.forward (Function.update xb (Fin.castAdd nb k)
                (fadd (xb (Fin.castAdd nb k))
                  (some (resolveDist cfg.disturbance (Fin.castAdd nb k)
                    * xbErr cfg (Fin.castAdd nb k))))) j) (y j))
            (some (resolveDist cfg.disturbance (Fin.castAdd nb k)
              * xbErr cfg (Fin.castAdd nb k)))),
           fun j k => fclean (fdiv
            (fsub (cfg.forward (Function.update xb (Fin.natAdd nx k)
                (fadd (xb (Fin.natAdd nx k))
                  (some (resolveDist cfg.disturbance (Fin.natAdd nx k)
                    * xbErr cfg (Fin.natAdd nx k))))) j) (y j))
            (some (resolveDist cfg.disturbance (Fin.natAdd nx k)
              * xbErr cfg (Fin.natAdd nx k))))))
    ∧ (cfg.useFactorInJac = true → (∀ k, xb k ≠ some 0) →
        getJacobian cfg xb y = .ok
          (fun j k => fclean (fdiv
            (fsub (cfg.forward (Function.update xb (Fin.castAdd nb k)
                (fmul (xb (Fin.castAdd nb k))
                  (some (resolveDist cfg.disturbance (Fin.castAdd nb k)))))
              j) (y j))
            (fmul (xb (Fin.castAdd nb k))
              (some (resolveDist cfg.disturbance (Fin.castAdd nb k) - 1)))),
           fun j k => fclean (fdiv
            (fsub (cfg.forward (Function.update xb (Fin.natAdd nx k)
                (fmul (xb (Fin.natAdd nx k))
                  (some (resolveDist cfg.disturbance (Fin.natAdd nx k)))))
              j) (y j))
            (fmul (xb (Fin.natAdd nx k))
              (some (resolveDist cfg.disturbance (Fin.natAdd nx k) - 1)))))) := by
  refine ⟨fun hm hex => ?_, fun hm hny hex => ?_, fun hm hall => ?_,
    fun hm hall => ?_⟩
  · rw [getJacobian, if_pos ⟨hm, hex⟩]
  · rw [getJacobian, if_neg (by rw [hm]; rintro ⟨h1, -⟩; cases h1),
      if_pos ⟨hm, hny, hex⟩]
  · rw [getJacobian, if_neg (by rw [hm]; rintro ⟨h1, -⟩; cases h1),
      if_neg (by rintro ⟨-, -, k, hk⟩; exact hall k hk)]
    simp only [hm, Bool.false_eq_true, if_false]
  · have hno : ¬(cfg.useFactorInJac = true ∧ ∃ k, xb k = some 0) := by
      rintro ⟨-, k, hk⟩; exact hall k hk
    rw [getJacobian, if_neg hno, if_neg (by rw [hm]; rintro ⟨h1, -⟩; cases h1)]
    simp only [hm, if_true]

/-- Witness for C6: multiplicative disturbance of a zero-valued component
and an additive zero perturbation magnitude both fail with
`AssertionError`; a well-posed additive configuration returns the
difference-quotient Jacobian. -/
theorem getJacobian_spec_witness :
    getJacobian exCfgMul (fun _ => some 0) (fun _ => some 1)
        = .error .assertionError
    ∧ getJacobian exCfgZeroDist (fun _ => some 0) (fun _ => some 0)
        = .error .assertionError :=
  ⟨(getJacobian_spec exCfgMul (fun _ => some 0) (fun _ => some 1)
      (by decide)).1 rfl ⟨0, rfl⟩,
   (getJacobian_spec exCfgZeroDist (fun _ => some 0) (fun _ => some 0)
      (by decide)).2.1 rfl (by decide) ⟨0, by decide⟩⟩

/-- Claim C4: every run that returns without convergence leaves
`converged = False`, `convI = -9999`, and every derived solution field
(`x_op`, `y_op`, `S_op`, `x_op_err`, `dgf`, `dgf_x`, `S_Ep`) set to the NaN
sentinel rather than any partial computation. -/
theorem doRetrieval_nonconvergent_sentinels {nx ny nb : ℕ}
    (cfg : OEConfig nx ny nb) (maxIter : ℕ) (x_0 : Option (Fin nx → FV))
    (timeExc : ℕ → Bool)
    (h : (doRetrieval cfg maxIter x_0 timeExc).toOption.map
        RunResult.converged = some false) :
    (doRetrieval cfg maxIter x_0 timeExc).toOption.map
        (fun r => (r.convI, r.x_op, r.y_op, r.S_op, r.x_op_err2, r.dgf,
          r.dgf_x, r.S_Ep))
      = some (-9999, none, none, none, none, none, none, none) := by
  rcases hrun : doRetrieval cfg maxIter x_0 timeExc with e | res
  · rw [hrun] at h; simp [Except.toOption] at h
  · rw [hrun] at h
    simp only [Except.toOption, Option.map_some'] at h ⊢
    have hc : res.converged = false := by simpa using h
    rw [doRetrieval] at hrun
    split at hrun
    · cases hrun
    · split at hrun
      · cases hrun
      · split at hrun
        · cases hrun
        · split at hrun
          · cases hrun
          · injection hrun with h'
            subst h'
            rw [finalize] at hc ⊢
            split at hc
            · simp at hc
            · rw [if_neg (by assumption)]

/-- Witness for C4: with `maxIter = 1` the loop exhausts after a single
iteration (the convergence check is skipped at `i = 0`), so the run does not
converge and every derived field is the sentinel. -/
theorem doRetrieval_nonconvergent_sentinels_witness :
    (doRetrieval exCfg 1 none neverLate).toOption.map RunResult.converged
        = some false
    ∧ (doRetrieval exCfg 1 none neverLate).toOption.map
        (fun r => (r.convI, r.x_op, r.y_op, r.S_op, r.x_op_err2, r.dgf,
          r.dgf_x, r.S_Ep))
      = some (-9999, none, none, none, none, none, none, none) :=
  ⟨by decide,
   doRetrieval_nonconvergent_sentinels exCfg 1 none neverLate (by decide)⟩

theorem getD_append_len {α : Type} (l : List α) (a d : α) :
    (l ++ [a]).getD l.length d = a := by
  rw [List.getD_append_right _ _ _ _ (le_refl _), Nat.sub_self]
  rfl

theorem critAt_append_lt {nx ny nb : ℕ} (cfg : OEConfig nx ny nb)
    (hist : List (IterData nx ny nb)) (d : IterData nx ny nb) {j : ℕ}
    (h : j < hist.length) :
    critAt cfg (hist ++ [d]) j = critAt cfg hist j := by
  unfold critAt
  rw [List.getD_append _ _ _ _ h]

theorem critAt_append_self {nx ny nb : ℕ} (cfg : OEConfig nx ny nb)
    (hist : List (IterData nx ny nb)) (d : IterData nx ny nb) :
    critAt cfg (hist ++ [d]) hist.length
      = convCritB ((ny : ℚ) / cfg.convergenceFactor) d.d2 d.gam := by
  unfold critAt
  rw [getD_append_len]

theorem stepDecision_halt_cases {thr : ℚ} {conv te : Bool} {i : ℕ} {d2 : FV}
    {gam dgf : ℚ} {c : Bool} {ek : ExitKind}
    (h : stepDecision thr conv te i d2 gam dgf = .halt c ek) :
    (conv = true ∧ c = true ∧ ek = .confirmBreak) ∨
    (conv = false ∧ c = false ∧ (ek = .timeBreak ∨ ek = .dgfBreak)) := by
  unfold stepDecision at h
  split at h
  · rename_i hc
    injection h with h1 h2
    exact Or.inl ⟨hc, h1.symm, h2.symm⟩
  · rename_i hc
    have hcf : conv = false := by revert hc; cases conv <;> simp
    split at h
    · injection h with h1 h2
      exact Or.inr ⟨hcf, h1.symm, Or.inl h2.symm⟩
    · split at h
      · split at h
        · cases h
        · split at h
          · injection h with h1 h2
            exact Or.inr ⟨hcf, h1.symm, Or.inr h2.symm⟩
          · cases h
      · cases h

theorem stepDecision_next_cases {thr : ℚ} {conv te : Bool} {i : ℕ} {d2 : FV}
    {gam dgf : ℚ} {c : Bool}
    (h : stepDecision thr conv te i d2 gam dgf = .next c) :
    conv = false ∧ te = false ∧
      ((c = true ∧ i ≠ 0 ∧ convCritB thr d2 gam = true) ∨
       (c = false ∧ (i = 0 ∨ convCritB thr d2 gam = false))) := by
  unfold stepDecision at h
  split at h
  · cases h
  · rename_i hcv
    have hcf : conv = false := by revert hcv; cases conv <;> simp
    split at h
    · cases h
    · rename_i hte
      have htf : te = false := by revert hte; cases te <;> simp
      refine ⟨hcf, htf, ?_⟩
      split at h
      · rename_i hi
        split at h
        · rename_i hcrit
          injection h with h1
          exact Or.inl ⟨h1.symm, hi, hcrit⟩
        · rename_i hcrit
          split at h
          · cases h
          · injection h with h1
            have hcb : convCritB thr d2 gam = false := by
              revert hcrit; cases convCritB thr d2 gam <;> simp
            exact Or.inr ⟨h1.symm, Or.inr hcb⟩
      · rename_i hi
        injection h with h1
        exact Or.inr ⟨h1.symm, Or.inl (not_not.mp hi)⟩

theorem runLoop_post {nx ny nb : ℕ} (cfg : OEConfig nx ny nb)
    (S_a_inv : Matrix (Fin nx) (Fin nx) ℚ) (gam : List ℚ)
    (timeExc : ℕ → Bool) :
    ∀ (fuel i : ℕ) (conv : Bool) (hist : List (IterData nx ny nb))
      (xs : List (Fin nx → FV)) (ys : List (Fin ny → FV))
      (x_cur : Fin nx → FV) (y_cur : Fin ny → FV) (out : LoopOut nx ny nb),
      runLoop cfg S_a_inv gam timeExc fuel i conv hist xs ys x_cur y_cur
        = .ok out →
      1 ≤ fuel + i →
      hist.length = i → xs.length = i + 1 → ys.length = i + 1 →
      xs.getD i (junkVec nx) = x_cur → ys.getD i (junkVec ny) = y_cur →
      (conv = true → 2 ≤ i ∧ critAt cfg hist (i - 1) = true
        ∧ ∀ j, 1 ≤ j → j + 1 < i → critAt cfg hist j = false) →
      (conv = false → ∀ j, 1 ≤ j → j < i → critAt cfg hist j = false) →
      LoopPost cfg S_a_inv gam (i + fuel) out := by
  intro fuel
  induction fuel with
  | zero =>
    intro i conv hist xs ys x_cur y_cur out hok h1 hh hx hy hxc hyc hct hcf
    rw [runLoop] at hok
    injection hok with h'
    subst h'
    refine ⟨?_, ?_, ?_, ?_, fun _ => Or.inr rfl, fun hcv _ => ?_,
      fun hek => absurd hek (by simp)⟩
    · show hist.length = (i - 1) + 1
      omega
    · show xs.length = (i - 1) + 2
      omega
    · show ys.length = (i - 1) + 2
      omega
    · show (i - 1) + 1 ≤ i + 0
      omega
    · obtain ⟨h2i, hcrit, hprev⟩ := hct hcv
      refine ⟨?_, hcrit, fun j hj1 hj2 => hprev j hj1 ?_⟩
      · show 1 ≤ i - 1
        omega
      · replace hj2 : j < i - 1 := hj2
        omega
  | succ fuel ih =>
    intro i conv hist xs ys x_cur y_cur out hok h1 hh hx hy hxc hyc hct hcf
    rw [runLoop] at hok
    rcases hbody : iterBody cfg S_a_inv (gam.getD i 1) x_cur y_cur with
      e | ⟨d, x_next, y_next⟩
    · rw [hbody] at hok; cases hok
    · rw [hbody] at hok
      simp only [] at hok
      rcases hdec : stepDecision ((ny : ℚ) / cfg.convergenceFactor) conv
          (timeExc i) i d.d2 d.gam d.dgf with ⟨c, ek⟩ | c
      · -- the ladder halts here
        rw [hdec] at hok
        injection hok with h'
        subst h'
        rcases stepDecision_halt_cases hdec with ⟨hcv, hc, hek⟩ |
          ⟨hcv, hc, hek⟩
        · -- confirmation break: the previous iteration flagged convergence
          subst hc; subst hek
          obtain ⟨h2i, hcrit, hprev⟩ := hct hcv
          refine ⟨?_, ?_, ?_, ?_, fun _ => Or.inl rfl,
            fun _ hek2 => absurd hek2 (by simp), fun _ => ?_⟩
          · show (hist ++ [d]).length = i + 1
            simp [hh]
          · show (xs ++ [x_next]).length = i + 2
            simp [hx]
          · show (ys ++ [y_next]).length = i + 2
            simp [hy]
          · show i + 1 ≤ i + (fuel + 1)
            omega
          refine ⟨rfl, ?_, ?_, ?_, ?_⟩
          · show 2 ≤ i
            exact h2i
          · show critAt cfg (hist ++ [d]) (i - 1) = true
            rw [critAt_append_lt cfg hist d (by omega)]
            exact hcrit
          · intro j hj1 hj2
            replace hj2 : j < i - 1 := hj2
            show critAt cfg (hist ++ [d]) j = false
            rw [critAt_append_lt cfg hist d (by omega)]
            exact hprev j hj1 (by omega)
          · show iterBody cfg S_a_inv (gam.getD i 1)
                ((xs ++ [x_next]).getD i (junkVec nx))
                ((ys ++ [y_next]).getD i (junkVec ny))
              = .ok ((hist ++ [d]).getD i default,
                  (xs ++ [x_next]).getD (i + 1) (junkVec nx),
                  (ys ++ [y_next]).getD (i + 1) (junkVec ny))
            rw [List.getD_append _ _ _ _ (by omega),
              List.getD_append _ _ _ _ (by omega), hxc, hyc]
            have e1 : (hist ++ [d]).getD i default = d := by
              rw [← hh]; exact getD_append_len hist d default
            have e2 : (xs ++ [x_next]).getD (i + 1) (junkVec nx)
                = x_next := by
              rw [← hx]; exact getD_append_len xs x_next (junkVec nx)
            have e3 : (ys ++ [y_next]).getD (i + 1) (junkVec ny)
                = y_next := by
              rw [← hy]; exact getD_append_len ys y_next (junkVec ny)
            rw [e1, e2, e3]
            exact hbody
        · -- time-exceeded or zero-information stop, not converged
          subst hc
          refine ⟨?_, ?_, ?_, ?_, fun hcv2 => absurd hcv2 (by simp),
            fun hcv2 => absurd hcv2 (by simp), fun hek2 => ?_⟩
          · show (hist ++ [d]).length = i + 1
            simp [hh]
          · show (xs ++ [x_next]).length = i + 2
            simp [hx]
          · show (ys ++ [y_next]).length = i + 2
            simp [hy]
          · show i + 1 ≤ i + (fuel + 1)
            omega
          · replace hek2 : ek = ExitKind.confirmBreak := hek2
            rcases hek with h' | h' <;> rw [h'] at hek2 <;> cases hek2
      · -- the loop continues with flag `c`
        rw [hdec] at hok
        obtain ⟨hcv, -, hcase⟩ := stepDecision_next_cases hdec
        have hpost := ih (i + 1) c (hist ++ [d]) (xs ++ [x_next])
          (ys ++ [y_next]) x_next y_next out hok (by omega)
          (by simp [hh]) (by simp [hx]) (by simp [hy])
          (by rw [← hx]; exact getD_append_len xs x_next (junkVec nx))
          (by rw [← hy]; exact getD_append_len ys y_next (junkVec ny))
          ?hct ?hcf
        · have hbound : i + 1 + fuel = i + (fuel + 1) := by omega
          rw [hbound] at hpost
          exact hpost
        case hct =>
          intro hc1
          rcases hcase with ⟨-, hi0, hcb⟩ | ⟨hc2, -⟩
          · refine ⟨by omega, ?_, ?_⟩
            · show critAt cfg (hist ++ [d]) (i + 1 - 1) = true
              have hieq : i + 1 - 1 = hist.length := by omega
              rw [hieq, critAt_append_self]
              exact hcb
            · intro j hj1 hj2
              rw [critAt_append_lt cfg hist d (by omega)]
              exact hcf hcv j hj1 (by omega)
          · rw [hc1] at hc2; cases hc2
        case hcf =>
          intro hc1 j hj1 hj2
          rcases Nat.lt_or_ge j i with hji | hji
          · rw [critAt_append_lt cfg hist d (by omega)]
            exact hcf hcv j hj1 hji
          · have hji2 : j = i := by omega
            subst hji2
            rcases hcase with ⟨hc2, -⟩ | ⟨-, hi0 | hcb⟩
            · rw [hc1] at hc2; cases hc2
            · omega
            · have hjeq : j = hist.length := by omega
              rw [hjeq, critAt_append_self]
              exact hcb

theorem doRetrieval_ok_post {nx ny nb : ℕ} (cfg : OEConfig nx ny nb)
    (maxIter : ℕ) (x_0 : Option (Fin nx → FV)) (timeExc : ℕ → Bool)
    (res : RunResult nx ny nb)
    (hok : doRetrieval cfg maxIter x_0 timeExc = .ok res) :
    ∃ S_a_inv out, invertMatrixQ cfg.S_a = .ok S_a_inv
      ∧ res = finalize cfg out
      ∧ LoopPost cfg S_a_inv (mkGam cfg.gammaFactor maxIter) maxIter out := by
  rw [doRetrieval] at hok
  split at hok
  · cases hok
  · split at hok
    · cases hok
    · split at hok
      · cases hok
      · rename_i S_a_inv hSa
        split at hok
        · cases hok
        · rename_i out hloop
          injection hok with h'
          refine ⟨S_a_inv, out, hSa, h'.symm, ?_⟩
          have hpost := runLoop_post cfg S_a_inv
            (mkGam cfg.gammaFactor maxIter) timeExc maxIter 0 false []
            [(initState cfg x_0).1] [(initState cfg x_0).2]
            (initState cfg x_0).1 (initState cfg x_0).2 out hloop
            (by omega) rfl rfl rfl rfl rfl (fun h => by cases h)
            (fun _ j _ hj2 => absurd hj2 (by omega))
          rw [show (0 : ℕ) + maxIter = maxIter from by omega] at hpost
          exact hpost

theorem finalize_converged_eq {nx ny nb : ℕ} (cfg : OEConfig nx ny nb)
    (out : LoopOut nx ny nb) :
    (finalize cfg out).converged = out.converged := by
  rw [finalize]
  split
  · rename_i h; exact h.symm
  · rename_i h
    cases hoc : out.converged
    · rfl
    · exact absurd hoc h

theorem finalize_exitKind_eq {nx ny nb : ℕ} (cfg : OEConfig nx ny nb)
    (out : LoopOut nx ny nb) :
    (finalize cfg out).exitKind = out.exitKind := by
  rw [finalize]; split <;> rfl

theorem finalize_lastI_eq {nx ny nb : ℕ} (cfg : OEConfig nx ny nb)
    (out : LoopOut nx ny nb) :
    (finalize cfg out).lastI = out.lastI := by
  rw [finalize]; split <;> rfl

theorem finalize_hist_eq {nx ny nb : ℕ} (cfg : OEConfig nx ny nb)
    (out : LoopOut nx ny nb) :
    (finalize cfg out).hist = out.hist := by
  rw [finalize]; split <;> rfl

theorem finalize_xs_eq {nx ny nb : ℕ} (cfg : OEConfig nx ny nb)
    (out : LoopOut nx ny nb) :
    (finalize cfg out).xs = out.xs := by
  rw [finalize]; split <;> rfl

theorem finalize_ys_eq {nx ny nb : ℕ} (cfg : OEConfig nx ny nb)
    (out : LoopOut nx ny nb) :
    (finalize cfg out).ys = out.ys := by
  rw [finalize]; split <;> rfl

theorem finalize_converged_fields {nx ny nb : ℕ} (cfg : OEConfig nx ny nb)
    (out : LoopOut nx ny nb) (h : out.converged = true) :
    (finalize cfg out).convI = (out.lastI : ℤ)
    ∧ (finalize cfg out).x_op = some (out.xs.getD out.lastI (junkVec nx))
    ∧ (finalize cfg out).y_op = some (out.ys.getD out.lastI (junkVec ny))
    ∧ (finalize cfg out).S_op
        = some (out.hist.getD out.lastI default).S_ap := by
  rw [finalize, if_pos h]
  exact ⟨rfl, rfl, rfl, rfl⟩

/-- Claim C1 (amended): for every run that terminates with `converged=True`
**via the confirmation break** — that is, whenever the iteration after the
one that first satisfied the criterion actually runs — `convI` is the
terminating loop index; `x_op`, `y_op`, `S_op` are taken from that index;
the criterion was first satisfied at iteration `convI - 1` (the check is
skipped at iteration 0), so `x_op = x_i[convI]` is the state *produced by*
that iteration, not by the confirmation pass; and the Jacobian, posterior
covariance and averaging kernel stored at `convI` are the output of the
iteration body evaluated **at** the accepted state `x_op` during the
confirmation pass.  (The amendment: when the criterion is first satisfied
on the final loop iteration, the run still reports `converged=True` but no
confirmation pass runs and `x_op` is the pre-update state of that final
iteration — see the counterexample.) -/
theorem doRetrieval_confirm_pass {nx ny nb : ℕ} (cfg : OEConfig nx ny nb)
    (maxIter : ℕ) (x_0 : Option (Fin nx → FV)) (timeExc : ℕ → Bool)
    (res : RunResult nx ny nb)
    (hok : doRetrieval cfg maxIter x_0 timeExc = .ok res)
    (hconv : res.converged = true)
    (hek : res.exitKind = .confirmBreak) :
    res.convI = (res.lastI : ℤ)
    ∧ res.x_op = some (res.xs.getD res.lastI (junkVec nx))
    ∧ res.y_op = some (res.ys.getD res.lastI (junkVec ny))
    ∧ res.S_op = some (res.hist.getD res.lastI default).S_ap
    ∧ 2 ≤ res.lastI
    ∧ critAt cfg res.hist (res.lastI - 1) = true
    ∧ (∀ j, 1 ≤ j → j < res.lastI - 1 → critAt cfg res.hist j = false)
    ∧ res.x_op = some (res.xs.getD ((res.lastI - 1) + 1) (junkVec nx))
    ∧ ∃ S_a_inv, invertMatrixQ cfg.S_a = .ok S_a_inv
        ∧ iterBody cfg S_a_inv
            ((mkGam cfg.gammaFactor maxIter).getD res.lastI 1)
            (res.xs.getD res.lastI (junkVec nx))
            (res.ys.getD res.lastI (junkVec ny))
          = .ok (res.hist.getD res.lastI default,
              res.xs.getD (res.lastI + 1) (junkVec nx),
              res.ys.getD (res.lastI + 1) (junkVec ny)) := by
  obtain ⟨S_a_inv, out, hSa, hres, hpost⟩ :=
    doRetrieval_ok_post cfg maxIter x_0 timeExc res hok
  subst hres
  have hoek : out.exitKind = .confirmBreak := by
    rwa [finalize_exitKind_eq] at hek
  obtain ⟨hlen1, hlen2, hlen3, hbound, hexit, hexh, hconf⟩ := hpost
  obtain ⟨hoc, h2i, hcrit, hprev, htie⟩ := hconf hoek
  obtain ⟨hcI, hxop, hyop, hSop⟩ := finalize_converged_fields cfg out hoc
  rw [finalize_lastI_eq, finalize_hist_eq, finalize_xs_eq, finalize_ys_eq]
  refine ⟨hcI, hxop, hyop, hSop, h2i, hcrit, hprev, ?_, S_a_inv, hSa, htie⟩
  rw [show (out.lastI - 1) + 1 = out.lastI from by omega]
  exact hxop

/-- Witness for C1 on the 1-D test problem with `maxIter = 3`: the run
converges via the confirmation break at index 2. -/
theorem doRetrieval_confirm_pass_witness :
    ((doRetrieval exCfg 3 none neverLate).toOption.getD
        (junkResult 1 1 0)).converged = true
    ∧ ((doRetrieval exCfg 3 none neverLate).toOption.getD
        (junkResult 1 1 0)).exitKind = .confirmBreak
    ∧ ((doRetrieval exCfg 3 none neverLate).toOption.getD
        (junkResult 1 1 0)).convI
      = (((doRetrieval exCfg 3 none neverLate).toOption.getD
        (junkResult 1 1 0)).lastI : ℤ)
    ∧ 2 ≤ ((doRetrieval exCfg 3 none neverLate).toOption.getD
        (junkResult 1 1 0)).lastI := by
  have h := doRetrieval_confirm_pass exCfg 3 none neverLate
    ((doRetrieval exCfg 3 none neverLate).toOption.getD (junkResult 1 1 0))
    rfl (by decide) (by decide)
  exact ⟨by decide, by decide, h.1, h.2.2.2.2.1⟩

/-- Counterexample to C1 as stated: with `maxIter = 2` the criterion is
first satisfied at iteration 1 (`critAt … 1 = true`; the check is skipped
at iteration 0), the loop range is exhausted with no confirmation pass
(`exitKind = exhausted`), the run still reports `converged = True` with
`convI = 1`, and `x_op = x_i[1]` — the state *entering* the iteration that
satisfied the criterion — while the state that iteration *produced* is
`x_i[2] ≠ x_i[1]`. -/
theorem doRetrieval_confirm_pass_counterexample :
    (doRetrieval exCfg 2 none neverLate).toOption.map
        (fun r => (r.converged, r.convI, r.lastI, r.exitKind))
      = some (true, 1, 1, .exhausted)
    ∧ (doRetrieval exCfg 2 none neverLate).toOption.map
        (fun r => (critAt exCfg r.hist 1,
          decide (r.x_op = some (r.xs.getD 1 (junkVec 1))),
          decide (r.xs.getD 1 (junkVec 1) = r.xs.getD 2 (junkVec 1))))
      = some (true, true, false) :=
  ⟨by decide, by decide⟩

/-- Claim C10 (amended): every converged run has `convI = lastI ≥ 1` (the
convergence check is skipped at iteration 0), hence needs `maxIter ≥ 2`;
and `convI ≥ 2` whenever the run ends via the confirmation break.  (The
original claim's `convI ≥ 2`, three loop passes, and impossibility with
`maxIter < 3` fail when the criterion is first satisfied on the final
iteration: the run then converges without a confirmation pass — see the
counterexample, a converged run with `maxIter = 2` and `convI = 1`.) -/
theorem doRetrieval_converged_bounds {nx ny nb : ℕ} (cfg : OEConfig nx ny nb)
    (maxIter : ℕ) (x_0 : Option (Fin nx → FV)) (timeExc : ℕ → Bool)
    (res : RunResult nx ny nb)
    (hok : doRetrieval cfg maxIter x_0 timeExc = .ok res)
    (hconv : res.converged = true) :
    1 ≤ res.lastI ∧ res.convI = (res.lastI : ℤ) ∧ 2 ≤ maxIter
    ∧ (res.exitKind = .confirmBreak → 2 ≤ res.lastI) := by
  obtain ⟨S_a_inv, out, hSa, hres, hpost⟩ :=
    doRetrieval_ok_post cfg maxIter x_0 timeExc res hok
  subst hres
  have hoc : out.converged = true := by
    rwa [finalize_converged_eq] at hconv
  obtain ⟨hlen1, hlen2, hlen3, hbound, hexit, hexh, hconf⟩ := hpost
  have h1 : 1 ≤ out.lastI := by
    rcases hexit hoc with hcb | hex
    · have := (hconf hcb).2.1; omega
    · exact (hexh hoc hex).1
  refine ⟨by rw [finalize_lastI_eq]; exact h1, ?_, by omega, fun hek => ?_⟩
  · rw [(finalize_converged_fields cfg out hoc).1, finalize_lastI_eq]
  · rw [finalize_lastI_eq]
    exact (hconf (by rwa [finalize_exitKind_eq] at hek)).2.1

/-- Witness for C10 on the 1-D test problem with `maxIter = 3`. -/
theorem doRetrieval_converged_bounds_witness :
    ((doRetrieval exCfg 3 none neverLate).toOption.getD
        (junkResult 1 1 0)).converged = true
    ∧ 1 ≤ ((doRetrieval exCfg 3 none neverLate).toOption.getD
        (junkResult 1 1 0)).lastI := by
  have h := doRetrieval_converged_bounds exCfg 3 none neverLate
    ((doRetrieval exCfg 3 none neverLate).toOption.getD (junkResult 1 1 0))
    rfl (by decide)
  exact ⟨by decide, h.1⟩

/-- Counterexample to C10 as stated: a run with `maxIter = 2` converges
(two loop passes, `convI = 1 < 2`), so a converged retrieval is possible
with `maxIter` less than 3. -/
theorem doRetrieval_converged_bounds_counterexample :
    (doRetrieval exCfg 2 none neverLate).toOption.map
        (fun r => (r.converged, r.convI)) = some (true, 1) := by
  decide

end PyOE
